import Mathlib

/-!
Verification of the tool/toolchain execution engine of varial
(src/varial/toolinterface.py) through a shallow embedding.

The embedding models the state touched by the engine: the filesystem
holding the per-tool log marker files, the result store (diskio), the
tool stack (analysis.push_tool / pop_tool), the global settings flag
only_reload_results, the monitor reset flag, a logical clock for
timestamps, and a ghost trace of lifecycle events.  Tool bodies
(user business code, Tool.run) are arbitrary state transformers.
The collaborator modules analysis, settings, monitor, diskio, util and
time are not part of the sources; where their behaviour matters it is
modelled from the spec and marked as such in doc comments.
-/

set_option maxHeartbeats 1000000

/-- Filesystem model: association list from path to file content.
Lookup returns the first binding. -/
def lookupFile (fs : List (String × String)) (p : String) : Option String :=
  (fs.find? (fun e => e.1 == p)).map (·.2)

/-- os.remove: drop every binding at the given path. -/
def removeFile (fs : List (String × String)) (p : String) : List (String × String) :=
  fs.filter (fun e => !(e.1 == p))

/-- open(path, w).write(content): a fresh binding shadows older ones. -/
def writeFile (fs : List (String × String)) (p c : String) : List (String × String) :=
  (p, c) :: fs

/-- Per-object attribute store for the Python `_reuse` attributes,
keyed by the node path.  Reading an attribute never written defaults to
false (it is only ever read after being written by the engine). -/
def attrsGet (a : List (String × Bool)) (p : String) : Bool :=
  match a.find? (fun e => e.1 == p) with
  | some e => e.2
  | none => false

/-- Attribute assignment: a fresh binding shadows older ones. -/
def attrsSet (a : List (String × Bool)) (p : String) (b : Bool) : List (String × Bool) :=
  (p, b) :: a

theorem lookupFile_cons (e : String × String) (fs : List (String × String)) (q : String) :
    lookupFile (e :: fs) q = if e.1 = q then some e.2 else lookupFile fs q := by
  simp only [lookupFile, List.find?_cons]
  by_cases h : e.1 = q
  · simp [h]
  · have hb : (e.1 == q) = false := by simp [h]
    simp [hb, h]

theorem lookupFile_write_self (fs : List (String × String)) (p c : String) :
    lookupFile (writeFile fs p c) p = some c := by
  simp [writeFile, lookupFile_cons]

theorem lookupFile_write_ne (fs : List (String × String)) (p q c : String) (h : p ≠ q) :
    lookupFile (writeFile fs p c) q = lookupFile fs q := by
  simp [writeFile, lookupFile_cons, h]

theorem lookupFile_remove_self (fs : List (String × String)) (p : String) :
    lookupFile (removeFile fs p) p = none := by
  induction fs with
  | nil => rfl
  | cons e rest ih =>
    simp only [removeFile, List.filter_cons]
    by_cases h : e.1 = p
    · simpa [h, removeFile] using ih
    · have hb : (!(e.1 == p)) = true := by simp [h]
      rw [hb]
      simp only [if_true, lookupFile_cons, h, if_false]
      simpa [removeFile] using ih

theorem lookupFile_remove_ne (fs : List (String × String)) (p q : String) (h : p ≠ q) :
    lookupFile (removeFile fs p) q = lookupFile fs q := by
  induction fs with
  | nil => rfl
  | cons e rest ih =>
    simp only [removeFile, List.filter_cons]
    by_cases he : e.1 = p
    · have hq : ¬ (e.1 = q) := by simpa [he] using h
      have hb : (!(e.1 == p)) = false := by simp [he]
      rw [hb]
      simp only [if_false, lookupFile_cons, hq]
      simpa [removeFile] using ih
    · have hb : (!(e.1 == p)) = true := by simp [he]
      rw [hb]
      simp only [if_true, lookupFile_cons]
      by_cases hq : e.1 = q
      · simp [hq]
      · simpa [hq, removeFile] using ih

theorem attrsGet_cons (e : String × Bool) (a : List (String × Bool)) (q : String) :
    attrsGet (e :: a) q = if e.1 = q then e.2 else attrsGet a q := by
  simp only [attrsGet, List.find?_cons]
  by_cases h : e.1 = q
  · simp [h]
  · have hb : (e.1 == q) = false := by simp [h]
    simp [hb, h, attrsGet]

theorem attrsGet_set_self (a : List (String × Bool)) (p : String) (b : Bool) :
    attrsGet (attrsSet a p b) p = b := by
  simp [attrsSet, attrsGet_cons]

theorem attrsGet_set_ne (a : List (String × Bool)) (p q : String) (b : Bool) (h : p ≠ q) :
    attrsGet (attrsSet a p b) q = attrsGet a q := by
  simp [attrsSet, attrsGet_cons, h]

/-- Modelled from the spec: time.ctime (the time module is not part of
the sources).  All the engine needs is a deterministic, newline-free,
human-readable timestamp per clock tick. -/
def ctime (n : Nat) : String :=
  String.mk ('t' :: List.replicate n 'i')

theorem ctime_no_newline (n : Nat) : '\n' ∉ (ctime n).data := by
  intro h
  simp only [ctime, List.mem_cons, List.mem_replicate] at h
  rcases h with h | ⟨-, h⟩ <;> exact absurd h (by decide)

/-- Modelled from the spec: analysis.cwd, the working directory of the
innermost entered node (the analysis module is not part of the sources).
Spec section 6: a node path is the ancestor names joined by a slash and a
working directory is the path with a trailing separator.  The stack holds
the innermost node first. -/
def cwdOf : List String → String
  | [] => ""
  | n :: s => cwdOf s ++ n ++ "/"

theorem length_cwdOf_cons (n : String) (s : List String) :
    (cwdOf (n :: s)).length = (cwdOf s).length + n.length + 1 := by
  have h1 : ("/" : String).length = 1 := rfl
  simp [cwdOf, String.length_append, h1]

theorem length_cwdOf_lt (n : String) (s : List String) :
    (cwdOf s).length < (cwdOf (n :: s)).length := by
  rw [length_cwdOf_cons]
  omega

/-- Python 2 exception value as the engine observes it: the dynamic type
(`etype`), the `.message` attribute (exceptions are modelled as built with
a single string argument, so `str(e)` and `e.message` coincide), the
traceback object `etb` (an opaque identifier: re-raising with
`raise etype, evalue, etb` keeps it), and a ghost counter of how many
times the engine wrapped the value into a fresh exception. -/
structure PyExc where
  ty : String
  msg : String
  tb : Nat
  wraps : Nat
deriving DecidableEq, Repr

/-- Is `needle` a leading sequence of `hay`? -/
def isPrefixChars : List Char → List Char → Bool
  | [], _ => true
  | _ :: _, [] => false
  | a :: as, b :: bs => a == b && isPrefixChars as bs

/-- Python substring test `needle in hay`. -/
def containsSub (needle : List Char) : List Char → Bool
  | [] => isPrefixChars needle []
  | c :: rest => isPrefixChars needle (c :: rest) || containsSub needle rest

theorem isPrefixChars_self_append (n post : List Char) :
    isPrefixChars n (n ++ post) = true := by
  induction n with
  | nil => rfl
  | cons a as ih => simp [isPrefixChars, ih]

theorem containsSub_of_middle (n pre post : List Char) :
    containsSub n (pre ++ (n ++ post)) = true := by
  induction pre with
  | nil =>
    cases hn : n ++ post with
    | nil =>
      have : n = [] := by
        cases n with
        | nil => rfl
        | cons a as => simp at hn
      simp [this, containsSub, isPrefixChars]
    | cons c rest =>
      simp only [List.nil_append, hn, containsSub]
      rw [← hn, isPrefixChars_self_append]
      simp
  | cons a as ih =>
    simp only [List.cons_append, containsSub, List.append_eq, ih, Bool.or_true]

/-- The marker substring that ToolChain._run_tool looks for in
`evalue.message` before annotating an exception. -/
def markerStr : String := "exception occured at path (class): "

/-- The annotation check `marker in evalue.message`. -/
def hasMarker (msg : String) : Bool :=
  containsSub markerStr.data msg.data

/-- The wrapping performed in the `except:` clause of
ToolChain._run_tool: a fresh exception of the original type whose message
appends the path (cwd without the trailing separator) and the concrete
class name of the node, keeping the original traceback. -/
def annotate (e : PyExc) (cwd cls : String) : PyExc :=
  { ty := e.ty
    msg := e.msg ++ ("\n" ++ (markerStr ++ ((cwd.dropRight 1) ++ (" (" ++ (cls ++ ")")))))
    tb := e.tb
    wraps := e.wraps + 1 }

theorem hasMarker_annotate (e : PyExc) (cwd cls : String) :
    hasMarker (annotate e cwd cls).msg = true := by
  show containsSub markerStr.data
    (e.msg ++ ("\n" ++ (markerStr ++ ((cwd.dropRight 1) ++ (" (" ++ (cls ++ ")")))))).data = true
  have hdata : (e.msg ++ ("\n" ++ (markerStr ++ ((cwd.dropRight 1) ++ (" (" ++ (cls ++ ")")))))).data
      = (e.msg.data ++ ("\n".data)) ++ (markerStr.data ++ ((cwd.dropRight 1) ++ (" (" ++ (cls ++ ")"))).data) := by
    simp [String.data_append, List.append_assoc]
  rw [hdata]
  exact containsSub_of_middle _ _ _

/-- Ghost trace events recording the engine lifecycle:
`asked parent child arg` is the call `tool.wanna_reuse(self._reuse)` made
by the chain at path `parent` for child `child` with argument `arg`;
`reusedEv p` is `tool.reuse()`; `startedEv p` is `t.starting()`;
`ranBody p cr` is the invocation of a leaf body `t.run()` (with the leaf
can_reuse flag); `finishedEv p` is `t.finished()`. -/
inductive Ev where
  | asked (parent child : String) (arg : Bool)
  | reusedEv (path : String)
  | startedEv (path : String)
  | ranBody (path : String) (canReuse : Bool)
  | finishedEv (path : String)
deriving DecidableEq, Repr

/-- Global state threaded through a run: the filesystem, the set of
working directories whose ResultStore holds a result (diskio.exists on
key result), the analysis tool stack (innermost first), the `_reuse`
attributes of the node objects keyed by node path (they persist across
exceptions, as Python attributes do), the setting
settings.only_reload_results, whether monitor.reset() was called, the
clock feeding the modelled ctime, and the ghost event trace. -/
structure St where
  files : List (String × String)
  store : List String
  stack : List String
  attrs : List (String × Bool)
  onlyReload : Bool
  monitorWasReset : Bool
  clock : Nat
  trace : List Ev
deriving DecidableEq, Repr

/-- The value of Tool.result after the body ran, abstracted to the two
facts Tool.finished consults: whether it is persisted to the store
(isinstance of Wrapper after the list/tuple wrapping attempt) and whether
it is truthy (`if self.result`). `noneV` is Python None. -/
inductive ResVal where
  | noneV
  | someV (persist truthy : Bool)
deriving DecidableEq, Repr

/-- Is the result persisted by Tool.finished? -/
def persistRes : ResVal → Bool
  | .noneV => false
  | .someV p _ => p

/-- Python truthiness of the result, deciding the marker file choice. -/
def truthyRes : ResVal → Bool
  | .noneV => false
  | .someV _ t => t

/-- Outcome of a leaf body (Tool.run): the mutated state, the value of
self.result afterwards, and the exception if one was raised (Python
keeps the side effects of a failing body, so the state is returned in
both cases). -/
structure BodyRes where
  st : St
  result : ResVal
  exc : Option PyExc

/-- Chain flavours modelled by the interpreter: ToolChain and
ToolChainIndie (ToolChainVanilla adds an enter/exit wrapper modelled
separately; ToolChainParallel degrades to this sequential semantics). -/
inductive NodeKind where
  | plainChain
  | indieChain
deriving DecidableEq, Repr

/-- A node of the tool tree: a leaf Tool with its Python class name, its
can_reuse flag and its body, or a chain with its children in declared
order. -/
inductive Node where
  | tool (name cls : String) (can_reuse : Bool) (body : St → BodyRes)
  | chain (kind : NodeKind) (name cls : String) (children : List Node)

/-- The node name (`self.name`). -/
def nodeName : Node → String
  | .tool n _ _ _ => n
  | .chain _ n _ _ => n

/-- The base check `_ToolBase.wanna_reuse`:
`self.can_reuse and all_reused_before_me`. -/
def baseWannaReuse (can_reuse all_reused_before_me : Bool) : Bool :=
  can_reuse && all_reused_before_me

/-- The override `Tool.wanna_reuse`: the base check, then the plain log marker, then
the result-available marker together with the store check
(`self.io.exists(result)` keyed by the working directory). -/
def toolWannaReuse (cr arg : Bool) (fs : List (String × String))
    (store : List String) (plain res cwd : String) : Bool :=
  if baseWannaReuse cr arg then
    if (lookupFile fs plain).isSome then true
    else if (lookupFile fs res).isSome && store.contains cwd then true
    else false
  else false

/-- The path `self.logfile` as computed in Tool.__enter__:
os.path.join(cwd, name + .log). -/
def logPathPlain (cwd name : String) : String :=
  cwd ++ name ++ ".log"

/-- The path `self.logfile_res` as computed in Tool.__enter__: a distinct
result-available name when can_reuse, otherwise the plain path itself. -/
def logPathRes (cwd name : String) (can_reuse : Bool) : String :=
  if can_reuse then cwd ++ name ++ " (result available).log"
  else logPathPlain cwd name

/-- Append one ghost event. -/
def addEv (st : St) (e : Ev) : St :=
  { st with trace := st.trace ++ [e] }

/-- Tool.starting: message.started, record time_start, remove both
marker files.  Returns the state and time_start (self.time_start). -/
def tool_starting (st : St) (M plain res : String) : St × String :=
  let st1 := addEv st (.startedEv M)
  let ts := ctime st1.clock ++ "\n"
  (({ st1 with
      clock := st1.clock + 1,
      files := removeFile (removeFile st1.files plain) res }), ts)

/-- Tool.finished: persist the result when it is a Wrapper, record
time_fin, write exactly one marker file chosen by the truthiness of the
result, message.finished. -/
def tool_finished (st : St) (M plain res ts : String) (r : ResVal) : St :=
  let st1 := if persistRes r then { st with store := M :: st.store } else st
  let tf := ctime st1.clock ++ "\n"
  let target := if truthyRes r then res else plain
  let st2 := { st1 with
      clock := st1.clock + 1,
      files := writeFile st1.files target (ts ++ tf) }
  addEv st2 (.finishedEv M)

/-- The fatal error of the reload-only mode:
RuntimeError(End of reload results mode at: , t).  Being built with two
arguments, its Python 2 `.message` attribute is the empty string. -/
def reloadError : PyExc :=
  { ty := "RuntimeError", msg := "", tb := 0, wraps := 0 }

/-- The re-raise in the except clause of ToolChain._run_tool: wrap the
exception value into an annotated one of the same type unless its
message already carries the marker. -/
def wrapExc (e : PyExc) (cwd cls : String) : PyExc :=
  if hasMarker e.msg then e else annotate e cwd cls

/-- The fresh-execution path of ToolChain._run_tool for a leaf child,
starting from the state `st1` in which the child is already entered and
the wanna_reuse call was answered false: the chain-wide falsification
`self._reuse = False` for reusable children, the copy-down
`t._reuse = self._reuse`, `t.starting()`, the body `t.run()` (annotating
an exception that lacks the marker), `t.finished()` and the copy-back
`self._reuse = t._reuse`.  `P` is the chain working directory, `M` the
entered leaf working directory. -/
def toolPreBody (st1 : St) (P M plain res : String) (cr : Bool) : St × String :=
  let st2 := if cr then { st1 with attrs := attrsSet st1.attrs P false } else st1
  let st3 := { st2 with attrs := attrsSet st2.attrs M (attrsGet st2.attrs P) }
  let sres := tool_starting st3 M plain res
  (addEv sres.1 (.ranBody M cr), sres.2)

/-- The body call of the fresh-execution path and what follows it. -/
def toolFreshRun (st1 : St) (P M plain res cls : String) (cr : Bool)
    (body : St → BodyRes) : St × Option PyExc :=
  let pre := toolPreBody st1 P M plain res cr
  let br := body pre.1
  match br.exc with
  | some e => (br.st, some (wrapExc e M cls))
  | none =>
    let st5 := tool_finished br.st M plain res pre.2 br.result
    ({ st5 with attrs := attrsSet st5.attrs P (attrsGet st5.attrs M) }, none)

/-- Entering and starting a chain child inside ToolChain._run_tool: push
it (the with statement), record the wanna_reuse call (chains never
reuse: `can_reuse` is false on `_ToolBase`), copy the flag down
(`t._reuse = self._reuse`), `t.starting()` (which for ToolChainIndie
saves `_outer_reuse` and forces `self._reuse = True`). -/
def chainEnterStart (st : St) (kind : NodeKind) (name : String) : St :=
  let P := cwdOf st.stack
  let M := cwdOf (name :: st.stack)
  let st1 := addEv { st with stack := name :: st.stack } (.asked P name (attrsGet st.attrs P))
  let st2 := { st1 with attrs := attrsSet st1.attrs M (attrsGet st1.attrs P) }
  let st3 := addEv st2 (.startedEv M)
  match kind with
  | .indieChain => { st3 with attrs := attrsSet st3.attrs M true }
  | .plainChain => st3

/-- Finishing a chain child inside ToolChain._run_tool after its
children all ran: `t.finished()` (for ToolChainIndie restoring
`self._reuse = self._outer_reuse`, whose value `outer` is the flag that
was copied down at entry), the copy-back `self._reuse = t._reuse` and
the pop of the with statement. -/
def chainFinish (st : St) (kind : NodeKind) (P M : String) (outer : Bool)
    (parentStack : List String) : St :=
  let st5 := match kind with
    | .indieChain => { st with attrs := attrsSet st.attrs M outer }
    | .plainChain => st
  let st6 := addEv st5 (.finishedEv M)
  { st6 with attrs := attrsSet st6.attrs P (attrsGet st6.attrs M), stack := parentStack }

mutual

/-- ToolChain._run_tool(tool), executed with the parent chain entered
(top of st.stack): enter the child (push), call
tool.wanna_reuse(self._reuse) and reuse on true; otherwise apply the
reload-only abort (monitor.reset() and a fatal RuntimeError) for
reusable children, then run the fresh-execution path, annotating an
un-annotated exception with the working directory of the still-entered
child and its concrete class, and pop on every exit path (the with
statement runs its exit during propagation). -/
def runNode (st : St) : Node → St × Option PyExc
  | .tool name cls cr body =>
    let P := cwdOf st.stack
    let arg := attrsGet st.attrs P
    let M := cwdOf (name :: st.stack)
    let plain := logPathPlain M name
    let res := logPathRes M name cr
    let st1 := addEv { st with stack := name :: st.stack } (.asked P name arg)
    if toolWannaReuse cr arg st1.files st1.store plain res M then
      ({ addEv st1 (.reusedEv M) with stack := st.stack }, none)
    else if cr && st1.onlyReload then
      ({ st1 with monitorWasReset := true, stack := st.stack }, some reloadError)
    else
      let rr := toolFreshRun st1 P M plain res cls cr body
      ({ rr.1 with stack := st.stack }, rr.2)
  | .chain kind name cls children =>
    let P := cwdOf st.stack
    let M := cwdOf (name :: st.stack)
    let stS := chainEnterStart st kind name
    let rr := runChildren stS children
    match rr.2 with
    | some e => ({ rr.1 with stack := st.stack }, some (wrapExc e M cls))
    | none =>
      -- the saved `_outer_reuse` equals the copied-down parent flag
      (chainFinish rr.1 kind P M (attrsGet st.attrs P) st.stack, none)

/-- ToolChain.run: iterate the children strictly left to right, letting
exceptions propagate as they come. -/
def runChildren (st : St) : List Node → St × Option PyExc
  | [] => (st, none)
  | c :: cs =>
    let r := runNode st c
    match r.2 with
    | none => runChildren r.1 cs
    | some e => (r.1, some e)

end

theorem tool_starting_stack (st : St) (M p r : String) :
    (tool_starting st M p r).1.stack = st.stack := rfl

theorem tool_starting_attrs (st : St) (M p r : String) :
    (tool_starting st M p r).1.attrs = st.attrs := rfl

theorem tool_starting_onlyReload (st : St) (M p r : String) :
    (tool_starting st M p r).1.onlyReload = st.onlyReload := rfl

theorem tool_starting_trace (st : St) (M p r : String) :
    (tool_starting st M p r).1.trace = st.trace ++ [.startedEv M] := rfl

theorem tool_finished_stack (st : St) (M p r ts : String) (v : ResVal) :
    (tool_finished st M p r ts v).stack = st.stack := by
  unfold tool_finished
  split <;> rfl

theorem tool_finished_attrs (st : St) (M p r ts : String) (v : ResVal) :
    (tool_finished st M p r ts v).attrs = st.attrs := by
  unfold tool_finished
  split <;> rfl

theorem tool_finished_onlyReload (st : St) (M p r ts : String) (v : ResVal) :
    (tool_finished st M p r ts v).onlyReload = st.onlyReload := by
  unfold tool_finished
  split <;> rfl

theorem tool_finished_trace (st : St) (M p r ts : String) (v : ResVal) :
    (tool_finished st M p r ts v).trace = st.trace ++ [.finishedEv M] := by
  unfold tool_finished
  split <;> rfl

theorem ne_of_length_lt {a b : String} (h : a.length < b.length) : b ≠ a := by
  intro he
  rw [he] at h
  exact lt_irrefl _ h

/-- A benign leaf body: user business code that does not reach into the
engine internals (the tool stack, the `_reuse` attributes, the global
settings or the ghost trace).  It may use the filesystem, the store and
the clock freely, return any result and raise. -/
def BenignBody (b : St → BodyRes) : Prop :=
  ∀ s, (b s).st.stack = s.stack ∧ (b s).st.attrs = s.attrs ∧
    (b s).st.onlyReload = s.onlyReload ∧ (b s).st.trace = s.trace

/-- All leaf bodies in the tree are benign. -/
inductive Benign : Node → Prop
  | tool (n c : String) (cr : Bool) (b : St → BodyRes) :
      BenignBody b → Benign (.tool n c cr b)
  | chain (k : NodeKind) (n c : String) (cs : List Node) :
      (∀ x ∈ cs, Benign x) → Benign (.chain k n c cs)

/-- Frame facts relating a state to a later state of the same run, at a
chain nesting level of path length `L`: the global reload-only setting
is untouched, no ghost event is ever lost, every new wanna_reuse event
belongs to this level or a deeper one (its parent path is at least `L`
long), and the `_reuse` attribute of every strictly shallower node is
untouched. -/
def coreInv (L : Nat) (st st' : St) : Prop :=
  st'.onlyReload = st.onlyReload ∧
  (∀ ev, ev ∈ st.trace → ev ∈ st'.trace) ∧
  (∀ q c b, Ev.asked q c b ∈ st'.trace → Ev.asked q c b ∈ st.trace ∨ L ≤ q.length) ∧
  (∀ p : String, p.length < L → attrsGet st'.attrs p = attrsGet st.attrs p)

theorem coreInv_refl (L : Nat) (st : St) : coreInv L st st :=
  ⟨rfl, fun _ h => h, fun _ _ _ h => Or.inl h, fun _ _ => rfl⟩

theorem coreInv_trans {L : Nat} {st1 st2 st3 : St}
    (h12 : coreInv L st1 st2) (h23 : coreInv L st2 st3) : coreInv L st1 st3 := by
  obtain ⟨o12, m12, a12, t12⟩ := h12
  obtain ⟨o23, m23, a23, t23⟩ := h23
  refine ⟨o23.trans o12, fun ev h => m23 ev (m12 ev h), ?_, ?_⟩
  · intro q c b h
    rcases a23 q c b h with h' | h'
    · exact a12 q c b h'
    · exact Or.inr h'
  · intro p hp
    rw [t23 p hp, t12 p hp]

theorem coreInv_mono {L L' : Nat} {st st' : St} (hL : L ≤ L')
    (h : coreInv L' st st') : coreInv L st st' := by
  obtain ⟨o, m, a, t⟩ := h
  refine ⟨o, m, ?_, ?_⟩
  · intro q c b hq
    rcases a q c b hq with h' | h'
    · exact Or.inl h'
    · exact Or.inr (hL.trans h')
  · intro p hp
    exact t p (lt_of_lt_of_le hp hL)

theorem coreInv_of_parts {L : Nat} {st st' : St}
    (h1 : st'.onlyReload = st.onlyReload) (h2 : st'.trace = st.trace)
    (h3 : st'.attrs = st.attrs) : coreInv L st st' := by
  refine ⟨h1, ?_, ?_, ?_⟩
  · intro ev h; rw [h2]; exact h
  · intro q c b h; rw [h2] at h; exact Or.inl h
  · intro p _; rw [h3]

theorem coreInv_addEv_ask {L : Nat} (st : St) (q c : String) (b : Bool)
    (h : L ≤ q.length) : coreInv L st (addEv st (.asked q c b)) := by
  refine ⟨rfl, ?_, ?_, fun _ _ => rfl⟩
  · intro ev hev
    simp [addEv, List.mem_append, hev]
  · intro q' c' b' hm
    simp only [addEv, List.mem_append, List.mem_singleton] at hm
    rcases hm with hm | hm
    · exact Or.inl hm
    · cases hm
      exact Or.inr h

theorem coreInv_addEv_nonask {L : Nat} (st : St) (e : Ev)
    (h : ∀ q c b, e ≠ Ev.asked q c b) : coreInv L st (addEv st e) := by
  refine ⟨rfl, ?_, ?_, fun _ _ => rfl⟩
  · intro ev hev
    simp [addEv, List.mem_append, hev]
  · intro q' c' b' hm
    simp only [addEv, List.mem_append, List.mem_singleton] at hm
    rcases hm with hm | hm
    · exact Or.inl hm
    · exact absurd hm.symm (h q' c' b')

theorem coreInv_setAttr {L : Nat} (st : St) (p : String) (v : Bool)
    (h : L ≤ p.length) : coreInv L st { st with attrs := attrsSet st.attrs p v } := by
  refine ⟨rfl, fun _ hv => hv, fun _ _ _ hv => Or.inl hv, ?_⟩
  intro q hq
  have : p ≠ q := by
    intro he
    rw [he] at h
    omega
  simp [attrsGet_set_ne _ _ _ _ this]

theorem coreInv_tool_starting (L : Nat) (st : St) (M p r : String) :
    coreInv L st (tool_starting st M p r).1 := by
  refine ⟨tool_starting_onlyReload st M p r, ?_, ?_, ?_⟩
  · intro ev hev
    rw [tool_starting_trace]
    exact List.mem_append_left _ hev
  · intro q c b hm
    rw [tool_starting_trace] at hm
    rcases List.mem_append.1 hm with hm | hm
    · exact Or.inl hm
    · simp at hm
  · intro p' _
    rw [tool_starting_attrs]

theorem coreInv_tool_finished (L : Nat) (st : St) (M p r ts : String) (v : ResVal) :
    coreInv L st (tool_finished st M p r ts v) := by
  refine ⟨tool_finished_onlyReload st M p r ts v, ?_, ?_, ?_⟩
  · intro ev hev
    rw [tool_finished_trace]
    exact List.mem_append_left _ hev
  · intro q c b hm
    rw [tool_finished_trace] at hm
    rcases List.mem_append.1 hm with hm | hm
    · exact Or.inl hm
    · simp at hm
  · intro p' _
    rw [tool_finished_attrs]

theorem toolPreBody_stack (st1 : St) (P M plain res : String) (cr : Bool) :
    (toolPreBody st1 P M plain res cr).1.stack = st1.stack := by
  unfold toolPreBody
  by_cases hcr : cr <;> simp [hcr, addEv, tool_starting]

theorem toolPreBody_onlyReload (st1 : St) (P M plain res : String) (cr : Bool) :
    (toolPreBody st1 P M plain res cr).1.onlyReload = st1.onlyReload := by
  unfold toolPreBody
  by_cases hcr : cr <;> simp [hcr, addEv, tool_starting]

theorem toolPreBody_trace (st1 : St) (P M plain res : String) (cr : Bool) :
    (toolPreBody st1 P M plain res cr).1.trace
      = st1.trace ++ [.startedEv M, .ranBody M cr] := by
  unfold toolPreBody
  by_cases hcr : cr <;> simp [hcr, addEv, tool_starting]

theorem toolPreBody_attrs (st1 : St) (P M plain res : String) (cr : Bool) :
    (toolPreBody st1 P M plain res cr).1.attrs
      = attrsSet (if cr then attrsSet st1.attrs P false else st1.attrs) M
          (attrsGet (if cr then attrsSet st1.attrs P false else st1.attrs) P) := by
  unfold toolPreBody
  by_cases hcr : cr <;> simp [hcr, addEv, tool_starting]

theorem toolPreBody_files (st1 : St) (P M plain res : String) (cr : Bool) :
    (toolPreBody st1 P M plain res cr).1.files
      = removeFile (removeFile st1.files plain) res := by
  unfold toolPreBody
  by_cases hcr : cr <;> simp [hcr, addEv, tool_starting]

theorem toolPreBody_ts (st1 : St) (P M plain res : String) (cr : Bool) :
    (toolPreBody st1 P M plain res cr).2 = ctime st1.clock ++ "\n" := by
  unfold toolPreBody
  by_cases hcr : cr <;> simp [hcr, addEv, tool_starting]

theorem coreInv_toolPreBody (L : Nat) (st1 : St) (P M plain res : String) (cr : Bool)
    (hP : L ≤ P.length) (hM : L ≤ M.length) :
    coreInv L st1 (toolPreBody st1 P M plain res cr).1 := by
  refine ⟨toolPreBody_onlyReload st1 P M plain res cr, ?_, ?_, ?_⟩
  · intro ev hev
    rw [toolPreBody_trace]
    exact List.mem_append_left _ hev
  · intro q c b hm
    rw [toolPreBody_trace] at hm
    rcases List.mem_append.1 hm with hm | hm
    · exact Or.inl hm
    · simp at hm
  · intro p hp
    rw [toolPreBody_attrs]
    have hpM : M ≠ p := by
      intro he
      rw [he] at hM
      omega
    have hpP : P ≠ p := by
      intro he
      rw [he] at hP
      omega
    rw [attrsGet_set_ne _ _ _ _ hpM]
    by_cases hcr : cr
    · simp only [hcr, if_true]
      rw [attrsGet_set_ne _ _ _ _ hpP]
    · simp only [hcr, Bool.false_eq_true, if_false]

theorem toolFreshRun_inv (st1 : St) (P M plain res cls : String) (cr : Bool)
    (body : St → BodyRes) (hb : BenignBody body) (L : Nat)
    (hP : L ≤ P.length) (hM : L ≤ M.length) :
    coreInv L st1 (toolFreshRun st1 P M plain res cls cr body).1 ∧
    (toolFreshRun st1 P M plain res cls cr body).1.stack = st1.stack := by
  have hpre := coreInv_toolPreBody L st1 P M plain res cr hP hM
  have hpres := toolPreBody_stack st1 P M plain res cr
  obtain ⟨hbs, hba, hbo, hbt⟩ := hb (toolPreBody st1 P M plain res cr).1
  have hbody : coreInv L (toolPreBody st1 P M plain res cr).1
      (body (toolPreBody st1 P M plain res cr).1).st :=
    coreInv_of_parts hbo hbt hba
  unfold toolFreshRun
  cases hbe : (body (toolPreBody st1 P M plain res cr).1).exc with
  | some e =>
    simp only [hbe]
    exact ⟨coreInv_trans hpre hbody, by rw [hbs, hpres]⟩
  | none =>
    simp only [hbe]
    constructor
    · exact coreInv_trans hpre (coreInv_trans hbody (coreInv_trans
        (coreInv_tool_finished L (body (toolPreBody st1 P M plain res cr).1).st M plain res
          (toolPreBody st1 P M plain res cr).2
          (body (toolPreBody st1 P M plain res cr).1).result)
        (coreInv_setAttr
          (tool_finished (body (toolPreBody st1 P M plain res cr).1).st M plain res
            (toolPreBody st1 P M plain res cr).2
            (body (toolPreBody st1 P M plain res cr).1).result) P _ hP)))
    · rw [tool_finished_stack, hbs, hpres]

theorem chainEnterStart_stack (st : St) (kind : NodeKind) (name : String) :
    (chainEnterStart st kind name).stack = name :: st.stack := by
  unfold chainEnterStart
  cases kind <;> simp [addEv]

theorem chainEnterStart_onlyReload (st : St) (kind : NodeKind) (name : String) :
    (chainEnterStart st kind name).onlyReload = st.onlyReload := by
  unfold chainEnterStart
  cases kind <;> simp [addEv]

theorem chainEnterStart_trace (st : St) (kind : NodeKind) (name : String) :
    (chainEnterStart st kind name).trace
      = st.trace ++ [.asked (cwdOf st.stack) name (attrsGet st.attrs (cwdOf st.stack)),
          .startedEv (cwdOf (name :: st.stack))] := by
  unfold chainEnterStart
  cases kind <;> simp [addEv]

theorem chainEnterStart_attrs (st : St) (kind : NodeKind) (name : String) :
    (chainEnterStart st kind name).attrs
      = match kind with
        | .indieChain =>
            attrsSet (attrsSet st.attrs (cwdOf (name :: st.stack))
              (attrsGet st.attrs (cwdOf st.stack))) (cwdOf (name :: st.stack)) true
        | .plainChain =>
            attrsSet st.attrs (cwdOf (name :: st.stack))
              (attrsGet st.attrs (cwdOf st.stack)) := by
  unfold chainEnterStart
  cases kind <;> simp [addEv]

theorem coreInv_chainEnterStart (L : Nat) (st : St) (kind : NodeKind) (name : String)
    (hP : L ≤ (cwdOf st.stack).length) (hM : L ≤ (cwdOf (name :: st.stack)).length) :
    coreInv L st (chainEnterStart st kind name) := by
  refine ⟨chainEnterStart_onlyReload st kind name, ?_, ?_, ?_⟩
  · intro ev hev
    rw [chainEnterStart_trace]
    exact List.mem_append_left _ hev
  · intro q c b hm
    rw [chainEnterStart_trace] at hm
    rcases List.mem_append.1 hm with hm | hm
    · exact Or.inl hm
    · simp only [List.mem_cons, List.mem_singleton] at hm
      rcases hm with hm | hm | hm
      · cases hm
        exact Or.inr hP
      · cases hm
      · cases hm
  · intro p hp
    rw [chainEnterStart_attrs]
    have hpM : cwdOf (name :: st.stack) ≠ p := by
      intro he
      rw [he] at hM
      omega
    cases kind
    · simp only
      rw [attrsGet_set_ne _ _ _ _ hpM]
    · simp only
      rw [attrsGet_set_ne _ _ _ _ hpM, attrsGet_set_ne _ _ _ _ hpM]

theorem chainFinish_stack (st : St) (kind : NodeKind) (P M : String) (outer : Bool)
    (ps : List String) : (chainFinish st kind P M outer ps).stack = ps := by
  unfold chainFinish
  cases kind <;> simp [addEv]

theorem chainFinish_onlyReload (st : St) (kind : NodeKind) (P M : String) (outer : Bool)
    (ps : List String) : (chainFinish st kind P M outer ps).onlyReload = st.onlyReload := by
  unfold chainFinish
  cases kind <;> simp [addEv]

theorem chainFinish_trace (st : St) (kind : NodeKind) (P M : String) (outer : Bool)
    (ps : List String) :
    (chainFinish st kind P M outer ps).trace = st.trace ++ [.finishedEv M] := by
  unfold chainFinish
  cases kind <;> simp [addEv]

theorem chainFinish_attrs (st : St) (kind : NodeKind) (P M : String) (outer : Bool)
    (ps : List String) :
    (chainFinish st kind P M outer ps).attrs
      = match kind with
        | .indieChain =>
            attrsSet (attrsSet st.attrs M outer) P (attrsGet (attrsSet st.attrs M outer) M)
        | .plainChain => attrsSet st.attrs P (attrsGet st.attrs M) := by
  unfold chainFinish
  cases kind <;> simp [addEv]

theorem coreInv_chainFinish (L : Nat) (st : St) (kind : NodeKind) (P M : String)
    (outer : Bool) (ps : List String) (hP : L ≤ P.length) (hM : L ≤ M.length) :
    coreInv L st (chainFinish st kind P M outer ps) := by
  refine ⟨chainFinish_onlyReload st kind P M outer ps, ?_, ?_, ?_⟩
  · intro ev hev
    rw [chainFinish_trace]
    exact List.mem_append_left _ hev
  · intro q c b hm
    rw [chainFinish_trace] at hm
    rcases List.mem_append.1 hm with hm | hm
    · exact Or.inl hm
    · simp at hm
  · intro p hp
    rw [chainFinish_attrs]
    have hpM : M ≠ p := by
      intro he
      rw [he] at hM
      omega
    have hpP : P ≠ p := by
      intro he
      rw [he] at hP
      omega
    cases kind
    · simp only
      rw [attrsGet_set_ne _ _ _ _ hpP]
    · simp only
      rw [attrsGet_set_ne _ _ _ _ hpP, attrsGet_set_ne _ _ _ _ hpM]

mutual

theorem runNode_inv (st : St) (nd : Node) (h : Benign nd) :
    coreInv (cwdOf st.stack).length st (runNode st nd).1 ∧
    (runNode st nd).1.stack = st.stack := by
  cases nd with
  | tool name cls cr body =>
    cases h with
    | tool _ _ _ _ hb =>
      simp only [runNode]
      split
      · exact ⟨coreInv_trans
          (coreInv_of_parts rfl rfl rfl :
            coreInv (cwdOf st.stack).length st { st with stack := name :: st.stack })
          (coreInv_trans
            (coreInv_addEv_ask _ (cwdOf st.stack) name (attrsGet st.attrs (cwdOf st.stack))
              (le_refl _))
            (coreInv_trans
              (coreInv_addEv_nonask _ (.reusedEv (cwdOf (name :: st.stack)))
                (fun q c b hq => Ev.noConfusion hq))
              (coreInv_of_parts rfl rfl rfl))), rfl⟩
      · split
        · exact ⟨coreInv_trans
            (coreInv_of_parts rfl rfl rfl :
            coreInv (cwdOf st.stack).length st { st with stack := name :: st.stack })
            (coreInv_trans
              (coreInv_addEv_ask _ (cwdOf st.stack) name (attrsGet st.attrs (cwdOf st.stack))
                (le_refl _))
              (coreInv_of_parts rfl rfl rfl)), rfl⟩
        · have hM : (cwdOf st.stack).length ≤ (cwdOf (name :: st.stack)).length :=
            (length_cwdOf_lt name st.stack).le
          have hfr := toolFreshRun_inv
            (addEv { st with stack := name :: st.stack }
              (.asked (cwdOf st.stack) name (attrsGet st.attrs (cwdOf st.stack))))
            (cwdOf st.stack) (cwdOf (name :: st.stack))
            (logPathPlain (cwdOf (name :: st.stack)) name)
            (logPathRes (cwdOf (name :: st.stack)) name cr) cls cr body hb
            (cwdOf st.stack).length (le_refl _) hM
          refine ⟨coreInv_trans
            (coreInv_of_parts rfl rfl rfl :
            coreInv (cwdOf st.stack).length st { st with stack := name :: st.stack })
            (coreInv_trans
              (coreInv_addEv_ask _ (cwdOf st.stack) name (attrsGet st.attrs (cwdOf st.stack))
                (le_refl _))
              (coreInv_trans hfr.1 (coreInv_of_parts rfl rfl rfl))), rfl⟩
  | chain kind name cls children =>
    cases h with
    | chain _ _ _ _ hcs =>
      simp only [runNode]
      have hM : (cwdOf st.stack).length ≤ (cwdOf (name :: st.stack)).length :=
        (length_cwdOf_lt name st.stack).le
      have hrc := runChildren_inv (chainEnterStart st kind name) children hcs
      rw [chainEnterStart_stack] at hrc
      have hENT : coreInv (cwdOf st.stack).length st (chainEnterStart st kind name) :=
        coreInv_chainEnterStart _ st kind name (le_refl _) hM
      have hCH : coreInv (cwdOf st.stack).length st
          (runChildren (chainEnterStart st kind name) children).1 :=
        coreInv_trans hENT (coreInv_mono hM hrc.1)
      cases hrr : (runChildren (chainEnterStart st kind name) children).2 with
      | some e =>
        simp only [hrr]
        exact ⟨coreInv_trans hCH (coreInv_of_parts rfl rfl rfl), trivial⟩
      | none =>
        simp only [hrr]
        refine ⟨coreInv_trans hCH
          (coreInv_chainFinish _ _ kind (cwdOf st.stack) (cwdOf (name :: st.stack))
            _ st.stack (le_refl _) hM), ?_⟩
        rw [chainFinish_stack]

theorem runChildren_inv (st : St) (l : List Node) (h : ∀ x ∈ l, Benign x) :
    coreInv (cwdOf st.stack).length st (runChildren st l).1 ∧
    (runChildren st l).1.stack = st.stack := by
  cases l with
  | nil =>
    simp only [runChildren]
    exact ⟨coreInv_refl _ st, trivial⟩
  | cons c cs =>
    have h1 := runNode_inv st c (h c (List.mem_cons_self c cs))
    simp only [runChildren]
    cases hre : (runNode st c).2 with
    | some e =>
      simp only [hre]
      exact h1
    | none =>
      simp only [hre]
      have h2 := runChildren_inv (runNode st c).1 cs
        (fun x hx => h x (List.mem_cons_of_mem _ hx))
      rw [h1.2] at h2
      exact ⟨coreInv_trans h1.1 h2.1, h2.2⟩

end

theorem toolFreshRun_false (st1 : St) (P M plain res cls : String) (cr : Bool)
    (body : St → BodyRes) (hb : BenignBody body) (hMP : M ≠ P)
    (hf : cr = false → attrsGet st1.attrs P = false) :
    attrsGet (toolFreshRun st1 P M plain res cls cr body).1.attrs P = false ∧
    (∀ q c b, Ev.asked q c b ∈ (toolFreshRun st1 P M plain res cls cr body).1.trace →
      Ev.asked q c b ∈ st1.trace) := by
  obtain ⟨hbs, hba, hbo, hbt⟩ := hb (toolPreBody st1 P M plain res cr).1
  have hbase : attrsGet (if cr then attrsSet st1.attrs P false else st1.attrs) P = false := by
    by_cases hcr : cr
    · simp [hcr, attrsGet_set_self]
    · have hcr' : cr = false := by revert hcr; cases cr <;> simp
      simp [hcr', hf hcr']
  have hpa : attrsGet (toolPreBody st1 P M plain res cr).1.attrs P = false := by
    rw [toolPreBody_attrs, attrsGet_set_ne _ _ _ _ hMP]
    exact hbase
  have hpm : attrsGet (toolPreBody st1 P M plain res cr).1.attrs M = false := by
    rw [toolPreBody_attrs, attrsGet_set_self]
    exact hbase
  have htr := toolPreBody_trace st1 P M plain res cr
  unfold toolFreshRun
  cases hbe : (body (toolPreBody st1 P M plain res cr).1).exc with
  | some e =>
    simp only [hbe]
    constructor
    · rw [hba]
      exact hpa
    · intro q c b hm
      rw [hbt, htr] at hm
      rcases List.mem_append.1 hm with hm | hm
      · exact hm
      · simp at hm
  | none =>
    simp only [hbe]
    constructor
    · rw [attrsGet_set_self, tool_finished_attrs, hba]
      exact hpm
    · intro q c b hm
      simp only [tool_finished_trace] at hm
      rw [hbt, htr] at hm
      rcases List.mem_append.1 hm with hm | hm
      · rcases List.mem_append.1 hm with hm | hm
        · exact hm
        · simp at hm
      · simp at hm

theorem cwdOf_cons_ne (n : String) (s : List String) : cwdOf (n :: s) ≠ cwdOf s :=
  ne_of_length_lt (length_cwdOf_lt n s)

theorem chainEnterStart_attrP (st : St) (kind : NodeKind) (name : String) :
    attrsGet (chainEnterStart st kind name).attrs (cwdOf st.stack)
      = attrsGet st.attrs (cwdOf st.stack) := by
  have hMne := cwdOf_cons_ne name st.stack
  rw [chainEnterStart_attrs]
  cases kind
  · rw [attrsGet_set_ne _ _ _ _ hMne]
  · rw [attrsGet_set_ne _ _ _ _ hMne, attrsGet_set_ne _ _ _ _ hMne]

theorem chainEnterStart_attrM (st : St) (kind : NodeKind) (name : String) :
    attrsGet (chainEnterStart st kind name).attrs (cwdOf (name :: st.stack))
      = match kind with
        | .indieChain => true
        | .plainChain => attrsGet st.attrs (cwdOf st.stack) := by
  rw [chainEnterStart_attrs]
  cases kind
  · rw [attrsGet_set_self]
  · rw [attrsGet_set_self]

mutual

theorem runNode_false (st : St) (nd : Node) (h : Benign nd)
    (hf : attrsGet st.attrs (cwdOf st.stack) = false) :
    attrsGet (runNode st nd).1.attrs (cwdOf st.stack) = false ∧
    (∀ c b, Ev.asked (cwdOf st.stack) c b ∈ (runNode st nd).1.trace →
      Ev.asked (cwdOf st.stack) c b ∈ st.trace ∨ b = false) := by
  cases nd with
  | tool name cls cr body =>
    cases h with
    | tool _ _ _ _ hb =>
      simp only [runNode]
      split
      · refine ⟨hf, ?_⟩
        intro c b hm
        simp only [addEv, List.mem_append, List.mem_singleton] at hm
        rcases hm with (hm | hm) | hm
        · exact Or.inl hm
        · injection hm with h1 h2 h3
          rw [h3, hf]
          exact Or.inr rfl
        · cases hm
      · split
        · refine ⟨hf, ?_⟩
          intro c b hm
          simp only [addEv, List.mem_append, List.mem_singleton] at hm
          rcases hm with hm | hm
          · exact Or.inl hm
          · injection hm with h1 h2 h3
            rw [h3, hf]
            exact Or.inr rfl
        · have hMne := cwdOf_cons_ne name st.stack
          have hfr := toolFreshRun_false
            (addEv { st with stack := name :: st.stack }
              (.asked (cwdOf st.stack) name (attrsGet st.attrs (cwdOf st.stack))))
            (cwdOf st.stack) (cwdOf (name :: st.stack))
            (logPathPlain (cwdOf (name :: st.stack)) name)
            (logPathRes (cwdOf (name :: st.stack)) name cr) cls cr body hb hMne (fun _ => hf)
          refine ⟨hfr.1, ?_⟩
          intro c b hm
          have := hfr.2 _ c b hm
          simp only [addEv, List.mem_append, List.mem_singleton] at this
          rcases this with hm' | hm'
          · exact Or.inl hm'
          · injection hm' with h1 h2 h3
            rw [h3, hf]
            exact Or.inr rfl
  | chain kind name cls children =>
    cases h with
    | chain _ _ _ _ hcs =>
      simp only [runNode]
      have hMne := cwdOf_cons_ne name st.stack
      have hLlt := length_cwdOf_lt name st.stack
      have hinv := runChildren_inv (chainEnterStart st kind name) children hcs
      have hSP : attrsGet (chainEnterStart st kind name).attrs (cwdOf st.stack) = false := by
        rw [chainEnterStart_attrP]
        exact hf
      have hPafter : attrsGet
          (runChildren (chainEnterStart st kind name) children).1.attrs
          (cwdOf st.stack) = false := by
        have h4 := hinv.1.2.2.2 (cwdOf st.stack)
          (by rw [chainEnterStart_stack]; exact hLlt)
        rw [h4]
        exact hSP
      have hasks : ∀ c b,
          Ev.asked (cwdOf st.stack) c b ∈
            (runChildren (chainEnterStart st kind name) children).1.trace →
          Ev.asked (cwdOf st.stack) c b ∈ st.trace ∨ b = false := by
        intro c b hm
        have h3 := hinv.1.2.2.1 (cwdOf st.stack) c b hm
        rw [chainEnterStart_stack] at h3
        rcases h3 with h3 | h3
        · rw [chainEnterStart_trace] at h3
          rcases List.mem_append.1 h3 with h3 | h3
          · exact Or.inl h3
          · simp only [List.mem_cons, List.mem_singleton] at h3
            rcases h3 with h3 | h3 | h3
            · injection h3 with h1 h2 h5
              rw [h5, hf]
              exact Or.inr rfl
            · cases h3
            · cases h3
        · omega
      cases hrr : (runChildren (chainEnterStart st kind name) children).2 with
      | some e =>
        simp only [hrr]
        exact ⟨hPafter, hasks⟩
      | none =>
        simp only [hrr]
        constructor
        · rw [chainFinish_attrs]
          cases kind
          · rw [attrsGet_set_self]
            have hSM : attrsGet (chainEnterStart st .plainChain name).attrs
                (cwdOf (name :: st.stack)) = false := by
              rw [chainEnterStart_attrM]
              exact hf
            have hcf := runChildren_false (chainEnterStart st .plainChain name) children hcs
              (by rw [chainEnterStart_stack]; exact hSM)
            rw [chainEnterStart_stack] at hcf
            exact hcf.1
          · rw [attrsGet_set_self, attrsGet_set_self]
            exact hf
        · intro c b hm
          rw [chainFinish_trace] at hm
          rcases List.mem_append.1 hm with hm | hm
          · exact hasks c b hm
          · simp at hm

theorem runChildren_false (st : St) (l : List Node) (h : ∀ x ∈ l, Benign x)
    (hf : attrsGet st.attrs (cwdOf st.stack) = false) :
    attrsGet (runChildren st l).1.attrs (cwdOf st.stack) = false ∧
    (∀ c b, Ev.asked (cwdOf st.stack) c b ∈ (runChildren st l).1.trace →
      Ev.asked (cwdOf st.stack) c b ∈ st.trace ∨ b = false) := by
  cases l with
  | nil =>
    simp only [runChildren]
    exact ⟨hf, fun c b hm => Or.inl hm⟩
  | cons c cs =>
    have h1 := runNode_false st c (h c (List.mem_cons_self c cs)) hf
    simp only [runChildren]
    cases hre : (runNode st c).2 with
    | some e =>
      simp only [hre]
      exact h1
    | none =>
      simp only [hre]
      have hst := (runNode_inv st c (h c (List.mem_cons_self c cs))).2
      have h2 := runChildren_false (runNode st c).1 cs
        (fun x hx => h x (List.mem_cons_of_mem _ hx))
        (by rw [hst]; exact h1.1)
      rw [hst] at h2
      refine ⟨h2.1, ?_⟩
      intro c' b hm
      rcases h2.2 c' b hm with hm' | hb
      · exact h1.2 c' b hm'
      · exact Or.inr hb

end

/-- C1 (amended): in a run of a ToolChain, the first time a child with
can_reuse = true actually executes (its wanna_reuse call returned false
and its body ran), the chain-wide `_reuse` flag becomes false and stays
false for the rest of the run: every subsequent child of that run is
offered reuse with argument false.  (The claim as frozen said this of
every executing child; a child with can_reuse = false executes without
touching the flag, see the counterexample.)  Stated for any benign
subsequent siblings, arbitrary chains included. -/
theorem c1_reuse_propagation (st : St) (n cls : String) (body : St → BodyRes)
    (rest : List Node)
    (hb : BenignBody body) (hrest : ∀ x ∈ rest, Benign x)
    (hwanna : toolWannaReuse true (attrsGet st.attrs (cwdOf st.stack)) st.files st.store
      (logPathPlain (cwdOf (n :: st.stack)) n)
      (logPathRes (cwdOf (n :: st.stack)) n true)
      (cwdOf (n :: st.stack)) = false)
    (hok : (runNode st (.tool n cls true body)).2 = none) :
    attrsGet (runNode st (.tool n cls true body)).1.attrs (cwdOf st.stack) = false ∧
    attrsGet (runChildren (runNode st (.tool n cls true body)).1 rest).1.attrs
      (cwdOf st.stack) = false ∧
    (∀ c b, Ev.asked (cwdOf st.stack) c b ∈
        (runChildren (runNode st (.tool n cls true body)).1 rest).1.trace →
      Ev.asked (cwdOf st.stack) c b ∈ (runNode st (.tool n cls true body)).1.trace ∨
      b = false) := by
  have hben : Benign (.tool n cls true body) := Benign.tool n cls true body hb
  have hstack := (runNode_inv st _ hben).2
  have hMne := cwdOf_cons_ne n st.stack
  have hA : attrsGet (runNode st (.tool n cls true body)).1.attrs (cwdOf st.stack) = false := by
    by_cases honly : st.onlyReload = true
    · exfalso
      have habort : (runNode st (.tool n cls true body)).2 = some reloadError := by
        simp only [runNode, addEv]
        rw [hwanna]
        simp [honly]
      rw [habort] at hok
      cases hok
    · have honly' : st.onlyReload = false := by revert honly; cases st.onlyReload <;> simp
      have hrun : (runNode st (.tool n cls true body)).1
          = { (toolFreshRun (addEv { st with stack := n :: st.stack }
                (.asked (cwdOf st.stack) n (attrsGet st.attrs (cwdOf st.stack))))
              (cwdOf st.stack) (cwdOf (n :: st.stack))
              (logPathPlain (cwdOf (n :: st.stack)) n)
              (logPathRes (cwdOf (n :: st.stack)) n true) cls true body).1
              with stack := st.stack } := by
        simp only [runNode, addEv]
        rw [hwanna]
        simp [honly', addEv]
      rw [hrun]
      have hfr := toolFreshRun_false
        (addEv { st with stack := n :: st.stack }
          (.asked (cwdOf st.stack) n (attrsGet st.attrs (cwdOf st.stack))))
        (cwdOf st.stack) (cwdOf (n :: st.stack))
        (logPathPlain (cwdOf (n :: st.stack)) n)
        (logPathRes (cwdOf (n :: st.stack)) n true) cls true body hb hMne
        (fun hcr => by cases hcr)
      exact hfr.1
  refine ⟨hA, ?_, ?_⟩
  · have h2 := runChildren_false (runNode st (.tool n cls true body)).1 rest hrest
      (by rw [hstack]; exact hA)
    rw [hstack] at h2
    exact h2.1
  · have h2 := runChildren_false (runNode st (.tool n cls true body)).1 rest hrest
      (by rw [hstack]; exact hA)
    rw [hstack] at h2
    intro c b hm
    exact h2.2 c b hm

/-- Chain state and children for the C1 counterexample: the chain flag is
true, child A has can_reuse false, child B has can_reuse true and its
plain marker file on disk. -/
def c1st : St :=
  { files := [("Root/B/B.log", "x")], store := [], stack := ["Root"],
    attrs := [("Root/", true)], onlyReload := false, monitorWasReset := false,
    clock := 0, trace := [] }

def c1A : Node := Node.tool "A" "Tool" false (fun s => ⟨s, .noneV, none⟩)

def c1B : Node := Node.tool "B" "Tool" true (fun s => ⟨s, .noneV, none⟩)

/-- C1 counterexample: child A (can_reuse = false) actually executes its
body, yet the next sibling B is offered reuse with argument true (and
does reuse): the chain flag did not become false after a child executed,
contradicting the claim as frozen. -/
theorem c1_counterexample :
    Ev.ranBody "Root/A/" false ∈ (runChildren c1st [c1A, c1B]).1.trace ∧
    Ev.asked "Root/" "B" true ∈ (runChildren c1st [c1A, c1B]).1.trace ∧
    Ev.reusedEv "Root/B/" ∈ (runChildren c1st [c1A, c1B]).1.trace := by
  decide

/-- State and nodes for the C1 witness: a reusable child without markers
(so it executes) followed by a reusable child with its marker present. -/
def c1wst : St :=
  { files := [("Root/B/B.log", "x")], store := [], stack := ["Root"],
    attrs := [("Root/", true)], onlyReload := false, monitorWasReset := false,
    clock := 0, trace := [] }

def c1wbody : St → BodyRes := fun s => ⟨s, .noneV, none⟩

def c1wB : Node := Node.tool "B" "Tool" true (fun s => ⟨s, .noneV, none⟩)

/-- C1 witness: the amended theorem applied to a concrete chain. -/
theorem c1_reuse_propagation_witness :
    attrsGet (runNode c1wst (.tool "A" "Tool" true c1wbody)).1.attrs (cwdOf c1wst.stack)
      = false ∧
    attrsGet (runChildren (runNode c1wst (.tool "A" "Tool" true c1wbody)).1 [c1wB]).1.attrs
      (cwdOf c1wst.stack) = false ∧
    (∀ c b, Ev.asked (cwdOf c1wst.stack) c b ∈
        (runChildren (runNode c1wst (.tool "A" "Tool" true c1wbody)).1 [c1wB]).1.trace →
      Ev.asked (cwdOf c1wst.stack) c b ∈
        (runNode c1wst (.tool "A" "Tool" true c1wbody)).1.trace ∨ b = false) :=
  c1_reuse_propagation c1wst "A" "Tool" c1wbody [c1wB]
    (fun s => ⟨rfl, rfl, rfl, rfl⟩)
    (fun x hx => by
      simp only [List.mem_singleton] at hx
      subst hx
      exact Benign.tool _ _ _ _ (fun s => ⟨rfl, rfl, rfl, rfl⟩))
    (by decide) (by decide)

/-- C2: Tool.wanna_reuse(all_reused_before_me) returns true exactly when
can_reuse holds, all_reused_before_me holds, and either the plain
(ran, no result) log marker exists, or the (ran, result available)
marker exists and the result store confirms a stored result. -/
theorem c2_wanna_reuse (cr arg : Bool) (fs : List (String × String))
    (store : List String) (plain res cwd : String) :
    toolWannaReuse cr arg fs store plain res cwd
      = (cr && arg && ((lookupFile fs plain).isSome
          || ((lookupFile fs res).isSome && store.contains cwd))) := by
  unfold toolWannaReuse baseWannaReuse
  cases cr <;> cases arg <;>
    by_cases h1 : (lookupFile fs plain).isSome <;>
      by_cases h2 : (lookupFile fs res).isSome && store.contains cwd <;>
        simp [h1, h2]

/-- C9: ToolChain.run executes its children strictly left to right; when
one child raises, the returned state and exception are those produced at
the failing child, independent of all later siblings, which are never
entered or run in that invocation, while all earlier siblings ran and
their effects stand. -/
theorem c9_sequential_short_circuit (st : St) (xs : List Node) (y : Node) (ys : List Node)
    (st1 st2 : St) (e : PyExc)
    (hxs : runChildren st xs = (st1, none))
    (hy : runNode st1 y = (st2, some e)) :
    runChildren st (xs ++ y :: ys) = (st2, some e) := by
  induction xs generalizing st with
  | nil =>
    simp only [runChildren] at hxs
    injection hxs with h1 h2
    subst h1
    simp only [List.nil_append, runChildren, hy]
  | cons c cs ih =>
    simp only [List.cons_append, runChildren] at hxs ⊢
    cases hrc : (runNode st c).2 with
    | some e' =>
      rw [hrc] at hxs
      simp at hxs
    | none =>
      rw [hrc] at hxs
      simp only [hrc]
      exact ih _ hxs

/-- Chain state and children for the C9 witness: A succeeds, B raises,
C would succeed but must never run. -/
def c9st : St :=
  { files := [], store := [], stack := ["Root"],
    attrs := [("Root/", false)], onlyReload := false, monitorWasReset := false,
    clock := 0, trace := [] }

def c9A : Node := Node.tool "A" "Tool" false (fun s => ⟨s, .noneV, none⟩)

def c9B : Node :=
  Node.tool "B" "Tool" false (fun s => ⟨s, .noneV, some ⟨"ValueError", "boom", 7, 0⟩⟩)

def c9C : Node := Node.tool "C" "Tool" false (fun s => ⟨s, .noneV, none⟩)

/-- C9 witness: the theorem applied to the chain [A, B, C] with B
failing. -/
theorem c9_witness : runChildren c9st ([c9A] ++ c9B :: [c9C]) =
    ((runNode (runChildren c9st [c9A]).1 c9B).1,
     some { ty := "ValueError",
            msg := "boom\nexception occured at path (class): Root/B (Tool)",
            tb := 7, wraps := 1 }) :=
  c9_sequential_short_circuit c9st [c9A] c9B [c9C] (runChildren c9st [c9A]).1
    (runNode (runChildren c9st [c9A]).1 c9B).1
    { ty := "ValueError",
      msg := "boom\nexception occured at path (class): Root/B (Tool)",
      tb := 7, wraps := 1 }
    (by rfl) (by rfl)

/-- Chain nodes never reuse: _ToolBase.can_reuse is false, hence a
false can_reuse makes wanna_reuse constantly false. -/
theorem toolWannaReuse_false_cr (arg : Bool) (fs : List (String × String))
    (store : List String) (plain res cwd : String) :
    toolWannaReuse false arg fs store plain res cwd = false := by
  simp [toolWannaReuse, baseWannaReuse]

/-- Arbitrarily nested single-child plain chains around a node,
outermost first. -/
def wrapChains : List (String × String) → Node → Node
  | [], nd => nd
  | (n, c) :: rest, nd => .chain .plainChain n c [wrapChains rest nd]

/-- C3: an exception raised by the body of a node nested in arbitrarily
many chains reaches the top-level caller with its original type and
traceback and exactly one annotation (the ghost wrap counter went from
`e0.wraps` to `e0.wraps + 1`), whose text names the working directory
(without the trailing separator) and the concrete class of the innermost
failing node: the nearest enclosing chain annotates, every outer chain
re-raises the already-marked value unchanged. -/
theorem c3_single_annotation (ctx : List (String × String)) (st : St)
    (lname lcls : String) (body : St → BodyRes) (e0 : PyExc)
    (hthrow : ∀ s, (body s).exc = some e0)
    (hm : hasMarker e0.msg = false) :
    (runNode st (wrapChains ctx (.tool lname lcls false body))).2
      = some (annotate e0
          (cwdOf (lname :: (ctx.map Prod.fst).reverse ++ st.stack)) lcls) ∧
    (annotate e0 (cwdOf (lname :: (ctx.map Prod.fst).reverse ++ st.stack)) lcls).ty
      = e0.ty ∧
    (annotate e0 (cwdOf (lname :: (ctx.map Prod.fst).reverse ++ st.stack)) lcls).tb
      = e0.tb ∧
    (annotate e0 (cwdOf (lname :: (ctx.map Prod.fst).reverse ++ st.stack)) lcls).wraps
      = e0.wraps + 1 := by
  refine ⟨?_, rfl, rfl, rfl⟩
  induction ctx generalizing st with
  | nil =>
    simp only [wrapChains, List.map_nil, List.reverse_nil, List.nil_append]
    simp only [runNode, addEv, toolWannaReuse_false_cr, Bool.false_eq_true, if_false,
      Bool.false_and]
    simp only [toolFreshRun, hthrow, wrapExc, hm, Bool.false_eq_true, if_false]
    rfl
  | cons hd rest ih =>
    obtain ⟨n1, c1⟩ := hd
    simp only [wrapChains, runNode]
    have hih := ih (chainEnterStart st .plainChain n1)
    rw [chainEnterStart_stack] at hih
    have hrr : (runChildren (chainEnterStart st .plainChain n1)
        [wrapChains rest (.tool lname lcls false body)]).2
        = some (annotate e0
            (cwdOf (lname :: (rest.map Prod.fst).reverse ++ n1 :: st.stack)) lcls) := by
      simp only [runChildren]
      rw [hih]
    rw [hrr]
    simp only [wrapExc, hasMarker_annotate, if_true]
    simp [List.append_assoc]

/-- Initial state and throwing body for the C3 witness: a leaf nested in
two chains raising KeyError(oops). -/
def c3st : St :=
  { files := [], store := [], stack := ["Root"],
    attrs := [("Root/", false)], onlyReload := false, monitorWasReset := false,
    clock := 0, trace := [] }

def c3body : St → BodyRes := fun s => ⟨s, .noneV, some ⟨"KeyError", "oops", 5, 0⟩⟩

/-- C3 witness: the theorem applied three levels deep. -/
theorem c3_witness :
    (runNode c3st (wrapChains [("Sub", "ToolChain"), ("Deep", "ToolChain")]
        (.tool "Leaf" "MyTool" false c3body))).2
      = some (annotate ⟨"KeyError", "oops", 5, 0⟩
          (cwdOf ("Leaf" ::
            ([("Sub", "ToolChain"), ("Deep", "ToolChain")].map Prod.fst).reverse
            ++ c3st.stack)) "MyTool") ∧
    (annotate ⟨"KeyError", "oops", 5, 0⟩
        (cwdOf ("Leaf" ::
          ([("Sub", "ToolChain"), ("Deep", "ToolChain")].map Prod.fst).reverse
          ++ c3st.stack)) "MyTool").ty = "KeyError" ∧
    (annotate ⟨"KeyError", "oops", 5, 0⟩
        (cwdOf ("Leaf" ::
          ([("Sub", "ToolChain"), ("Deep", "ToolChain")].map Prod.fst).reverse
          ++ c3st.stack)) "MyTool").tb = 5 ∧
    (annotate ⟨"KeyError", "oops", 5, 0⟩
        (cwdOf ("Leaf" ::
          ([("Sub", "ToolChain"), ("Deep", "ToolChain")].map Prod.fst).reverse
          ++ c3st.stack)) "MyTool").wraps = 0 + 1 :=
  c3_single_annotation [("Sub", "ToolChain"), ("Deep", "ToolChain")] c3st
    "Leaf" "MyTool" c3body ⟨"KeyError", "oops", 5, 0⟩ (fun s => rfl) (by decide)

/-- C4 (amended): with the reload-only setting active, a child with
can_reuse = true whose wanna_reuse call returns false makes
ToolChain._run_tool reset the global monitoring state and raise the
fatal RuntimeError immediately: the final state shows the monitor reset,
the trace gained only the wanna_reuse event (the body never started),
and the returned error is the two-argument RuntimeError.  (The claim as
frozen said this for every child that cannot be reused: a child with
can_reuse = false executes normally instead, see the counterexample.) -/
theorem c4_reload_only_abort (st : St) (n cls : String) (body : St → BodyRes)
    (honly : st.onlyReload = true)
    (hwanna : toolWannaReuse true (attrsGet st.attrs (cwdOf st.stack)) st.files st.store
      (logPathPlain (cwdOf (n :: st.stack)) n)
      (logPathRes (cwdOf (n :: st.stack)) n true)
      (cwdOf (n :: st.stack)) = false) :
    runNode st (.tool n cls true body)
      = ({ st with
            trace := st.trace
              ++ [.asked (cwdOf st.stack) n (attrsGet st.attrs (cwdOf st.stack))],
            monitorWasReset := true },
         some reloadError) ∧
    reloadError.ty = "RuntimeError" := by
  refine ⟨?_, rfl⟩
  simp only [runNode, addEv]
  rw [hwanna]
  simp [honly]

/-- State for the C4 counterexample: reload-only is active and the chain
flag is true, the child has can_reuse = false. -/
def c4st : St :=
  { files := [], store := [], stack := ["Root"],
    attrs := [("Root/", true)], onlyReload := true, monitorWasReset := false,
    clock := 0, trace := [] }

def c4L : Node := Node.tool "L" "Tool" false (fun s => ⟨s, .noneV, none⟩)

/-- C4 counterexample: reload-only is active, the child cannot be reused
(wanna_reuse returns false since can_reuse is false), yet no fatal error
is raised and the body executes, contradicting the claim as frozen. -/
theorem c4_counterexample :
    (runNode c4st c4L).2 = none ∧
    Ev.ranBody "Root/L/" false ∈ (runNode c4st c4L).1.trace := by
  decide

/-- State for the C4 witness: reload-only active, chain flag false so
the reusable child cannot be reused. -/
def c4wst : St :=
  { files := [], store := [], stack := ["Root"],
    attrs := [("Root/", false)], onlyReload := true, monitorWasReset := false,
    clock := 0, trace := [] }

def c4wbody : St → BodyRes := fun s => ⟨s, .noneV, none⟩

/-- C4 witness: the amended theorem at a concrete state. -/
theorem c4_reload_only_abort_witness :
    runNode c4wst (.tool "L" "Tool" true c4wbody)
      = ({ c4wst with
            trace := c4wst.trace
              ++ [.asked (cwdOf c4wst.stack) "L" (attrsGet c4wst.attrs (cwdOf c4wst.stack))],
            monitorWasReset := true },
         some reloadError) ∧
    reloadError.ty = "RuntimeError" :=
  c4_reload_only_abort c4wst "L" "Tool" c4wbody rfl (by decide)

/-- The worker function _run_tool_in_worker as dispatched for a
(chain_path, tool_index) pair: the
worker rebuilds the execution context by resolving the chain path (here:
the state st with the chain entered, spec section 4.6), picks the
designated child, runs it through the standard _run_tool lifecycle, and
returns only the pair (tool.name, reused): on success `reused` is the
chain reuse flag after the run, on any exception (KeyboardInterrupt is
swallowed, anything else is printed and requests pool termination) it
keeps its initial value false. -/
def run_tool_in_worker (st : St) (children : List Node) (i : Nat)
    (h : i < children.length) : String × Bool :=
  let tool := children.get ⟨i, h⟩
  let r := runNode st tool
  match r.2 with
  | none => (nodeName tool, attrsGet r.1.attrs (cwdOf st.stack))
  | some _ => (nodeName tool, false)

/-- C5: for every dispatched (chain, index) pair the worker function
returns exactly the two-element pair of the designated child name and a
boolean, whatever the outcome of the run: the result object itself is
never part of the return value. -/
theorem c5_worker_returns_pair (st : St) (children : List Node) (i : Nat)
    (h : i < children.length) :
    (run_tool_in_worker st children i h).1 = nodeName (children.get ⟨i, h⟩) ∧
    ∃ b : Bool, run_tool_in_worker st children i h
      = (nodeName (children.get ⟨i, h⟩), b) := by
  unfold run_tool_in_worker
  simp only [List.get_eq_getElem]
  cases hre : (runNode st children[i]).2 <;> simp [hre]

/-- State and children for the C5 witness, one succeeding and one
raising child. -/
def c5st : St :=
  { files := [], store := [], stack := ["Root"],
    attrs := [("Root/", false)], onlyReload := false, monitorWasReset := false,
    clock := 0, trace := [] }

def c5kids : List Node :=
  [Node.tool "X" "Tool" false (fun s => ⟨s, .noneV, none⟩),
   Node.tool "Y" "Tool" false (fun s => ⟨s, .noneV, some ⟨"ValueError", "bad", 1, 0⟩⟩)]

/-- C5 witness: the theorem applied to a concrete dispatch pair. -/
theorem c5_worker_returns_pair_witness :
    (run_tool_in_worker c5st c5kids 1 (by decide)).1
      = nodeName (c5kids.get ⟨1, by decide⟩) ∧
    ∃ b : Bool, run_tool_in_worker c5st c5kids 1 (by decide)
      = (nodeName (c5kids.get ⟨1, by decide⟩), b) :=
  c5_worker_returns_pair c5st c5kids 1 (by decide)

/-- Every _run_tool invocation records its own wanna_reuse call with the
flag value the parent chain held at that moment. -/
theorem runNode_asks_self (st : St) (nd : Node) (h : Benign nd) :
    Ev.asked (cwdOf st.stack) (nodeName nd) (attrsGet st.attrs (cwdOf st.stack))
      ∈ (runNode st nd).1.trace := by
  cases nd with
  | tool name cls cr body =>
    cases h with
    | tool _ _ _ _ hb =>
      simp only [runNode, nodeName]
      split
      · simp [addEv]
      · split
        · simp [addEv]
        · have hfr := toolFreshRun_inv
            (addEv { st with stack := name :: st.stack }
              (.asked (cwdOf st.stack) name (attrsGet st.attrs (cwdOf st.stack))))
            (cwdOf st.stack) (cwdOf (name :: st.stack))
            (logPathPlain (cwdOf (name :: st.stack)) name)
            (logPathRes (cwdOf (name :: st.stack)) name cr) cls cr body hb 0
            (Nat.zero_le _) (Nat.zero_le _)
          have hm := hfr.1.2.1
            (Ev.asked (cwdOf st.stack) name (attrsGet st.attrs (cwdOf st.stack)))
            (by simp [addEv])
          simpa using hm
  | chain kind name cls children =>
    cases h with
    | chain _ _ _ _ hcs =>
      simp only [runNode, nodeName]
      have hent : Ev.asked (cwdOf st.stack) name (attrsGet st.attrs (cwdOf st.stack))
          ∈ (chainEnterStart st kind name).trace := by
        rw [chainEnterStart_trace]
        simp
      have hrc := runChildren_inv (chainEnterStart st kind name) children hcs
      have hm := hrc.1.2.1 _ hent
      cases hrr : (runChildren (chainEnterStart st kind name) children).2 with
      | some e =>
        simp only [hrr]
        simpa using hm
      | none =>
        simp only [hrr]
        rw [chainFinish_trace]
        exact List.mem_append_left _ hm

/-- C7 (amended): ToolChainIndie forces its reuse flag to true when it
starts, so (as long as the run is under way) its first child is offered
reuse with argument true regardless of the ancestor flag, and when the
run completes without an exception the previous value is restored and
copied back, leaving the parent flag unchanged.  (The claim as frozen
said the previous value is restored even when a child raises: in that
case finished() is skipped and the forced value persists, see the
counterexample.) -/
theorem c7_indie (st : St) (n cls : String) (children : List Node)
    (hcs : ∀ x ∈ children, Benign x) (st' : St)
    (hok : runNode st (.chain .indieChain n cls children) = (st', none)) :
    attrsGet st'.attrs (cwdOf st.stack) = attrsGet st.attrs (cwdOf st.stack) ∧
    (∀ c cs, children = c :: cs →
      Ev.asked (cwdOf (n :: st.stack)) (nodeName c) true ∈ st'.trace) := by
  simp only [runNode] at hok
  cases hrr : (runChildren (chainEnterStart st .indieChain n) children).2 with
  | some e =>
    rw [hrr] at hok
    simp at hok
  | none =>
    rw [hrr] at hok
    simp only at hok
    injection hok with h1 h2
    subst h1
    constructor
    · rw [chainFinish_attrs]
      simp only
      rw [attrsGet_set_self, attrsGet_set_self]
    · intro c cs hchildren
      subst hchildren
      have hSstack := chainEnterStart_stack st .indieChain n
      have hSM : attrsGet (chainEnterStart st .indieChain n).attrs
          (cwdOf (n :: st.stack)) = true := by
        rw [chainEnterStart_attrM]
      have hask : Ev.asked (cwdOf (n :: st.stack)) (nodeName c) true
          ∈ (runNode (chainEnterStart st .indieChain n) c).1.trace := by
        have := runNode_asks_self (chainEnterStart st .indieChain n) c
          (hcs c (List.mem_cons_self c cs))
        rw [hSstack, hSM] at this
        exact this
      have hrest : Ev.asked (cwdOf (n :: st.stack)) (nodeName c) true
          ∈ (runChildren (chainEnterStart st .indieChain n) (c :: cs)).1.trace := by
        simp only [runChildren]
        cases hre : (runNode (chainEnterStart st .indieChain n) c).2 with
        | some e' =>
          simp only [hre]
          exact hask
        | none =>
          simp only [hre]
          have hinv := runChildren_inv (runNode (chainEnterStart st .indieChain n) c).1 cs
            (fun x hx => hcs x (List.mem_cons_of_mem _ hx))
          exact hinv.1.2.1 _ hask
      rw [chainFinish_trace]
      exact List.mem_append_left _ hrest

/-- State for the C7 counterexample: the parent chain flag is false, the
indie child chain contains a failing leaf. -/
def c7st : St :=
  { files := [], store := [], stack := ["Root"],
    attrs := [("Root/", false)], onlyReload := false, monitorWasReset := false,
    clock := 0, trace := [] }

def c7ind : Node :=
  Node.chain .indieChain "Ind" "ToolChainIndie"
    [Node.tool "L" "Tool" false (fun s => ⟨s, .noneV, some ⟨"ValueError", "boom", 3, 0⟩⟩)]

/-- C7 counterexample: the value copied down into the indie chain before
forcing was false (the parent flag), the child raises, and afterwards
the indie chain flag is still the forced true: the previous value was
not restored on this exit, contradicting the claim as frozen. -/
theorem c7_counterexample :
    attrsGet c7st.attrs "Root/" = false ∧
    (runNode c7st c7ind).2.isSome = true ∧
    attrsGet (runNode c7st c7ind).1.attrs "Root/Ind/" = true := by
  decide

/-- State and child for the C7 witness: a successful indie run. -/
def c7wst : St :=
  { files := [], store := [], stack := ["Root"],
    attrs := [("Root/", false)], onlyReload := false, monitorWasReset := false,
    clock := 0, trace := [] }

def c7wL : Node := Node.tool "L" "Tool" false (fun s => ⟨s, .noneV, none⟩)

/-- C7 witness: the amended theorem at a concrete successful run. -/
theorem c7_indie_witness :
    attrsGet (runNode c7wst (.chain .indieChain "Ind" "ToolChainIndie" [c7wL])).1.attrs
        (cwdOf c7wst.stack)
      = attrsGet c7wst.attrs (cwdOf c7wst.stack) ∧
    (∀ c cs, [c7wL] = c :: cs →
      Ev.asked (cwdOf ("Ind" :: c7wst.stack)) (nodeName c) true ∈
        (runNode c7wst (.chain .indieChain "Ind" "ToolChainIndie" [c7wL])).1.trace) :=
  c7_indie c7wst "Ind" "ToolChainIndie" [c7wL]
    (fun x hx => by
      simp only [List.mem_singleton] at hx
      subst hx
      exact Benign.tool _ _ _ _ (fun s => ⟨rfl, rfl, rfl, rfl⟩))
    (runNode c7wst (.chain .indieChain "Ind" "ToolChainIndie" [c7wL])).1
    (by rfl)

/-- The two marker file names of a reusable tool are distinct (their
lengths differ). -/
theorem logPath_ne (M n : String) : logPathPlain M n ≠ logPathRes M n true := by
  intro h
  have h2 := congrArg String.length h
  have e1 : (".log" : String).length = 4 := rfl
  have e2 : (" (result available).log" : String).length = 23 := rfl
  simp only [logPathPlain, logPathRes, if_true, String.length_append, e1, e2] at h2
  omega

/-- The files written by Tool.finished: exactly one marker, chosen by
the truthiness of the result, holding time_start then time_fin. -/
theorem tool_finished_files (st : St) (M p r ts : String) (v : ResVal) :
    (tool_finished st M p r ts v).files
      = writeFile st.files (if truthyRes v then r else p) (ts ++ (ctime st.clock ++ "\n")) := by
  unfold tool_finished
  split <;> rfl

/-- The marker content holds exactly two newline characters, one ending
each timestamp line. -/
theorem two_lines_count (a b : Nat) :
    ((ctime a ++ "\n") ++ (ctime b ++ "\n")).data.count '\n' = 2 := by
  have h1 := ctime_no_newline a
  have h2 := ctime_no_newline b
  have h3 : ("\n" : String).data = ['\n'] := rfl
  simp [String.data_append, List.count_append, List.count_eq_zero.mpr h1,
    List.count_eq_zero.mpr h2, h3]

/-- Marker bookkeeping of a fresh execution whose body succeeds and does
not touch the marker paths: the run succeeds and the files hold the
chosen marker with the two timestamps while the other marker is absent
(both were removed by Tool.starting). -/
theorem toolFreshRun_files (st1 : St) (P M plain res cls : String)
    (body : St → BodyRes) (r : ResVal)
    (hrun : ∀ s, (body s).exc = none ∧ (body s).result = r)
    (hfiles : ∀ s, lookupFile (body s).st.files plain = lookupFile s.files plain ∧
      lookupFile (body s).st.files res = lookupFile s.files res)
    (hne : plain ≠ res) :
    (toolFreshRun st1 P M plain res cls true body).2 = none ∧
    lookupFile (toolFreshRun st1 P M plain res cls true body).1.files
        (if truthyRes r then res else plain)
      = some ((ctime st1.clock ++ "\n")
          ++ (ctime (body (toolPreBody st1 P M plain res true).1).st.clock ++ "\n")) ∧
    lookupFile (toolFreshRun st1 P M plain res cls true body).1.files
        (if truthyRes r then plain else res) = none := by
  have hexc := (hrun (toolPreBody st1 P M plain res true).1).1
  have hres := (hrun (toolPreBody st1 P M plain res true).1).2
  have hfp := (hfiles (toolPreBody st1 P M plain res true).1).1
  have hfr := (hfiles (toolPreBody st1 P M plain res true).1).2
  have hplainN : lookupFile (body (toolPreBody st1 P M plain res true).1).st.files plain
      = none := by
    rw [hfp, toolPreBody_files, lookupFile_remove_ne _ _ _ (fun he => hne he.symm)]
    exact lookupFile_remove_self _ _
  have hresN : lookupFile (body (toolPreBody st1 P M plain res true).1).st.files res
      = none := by
    rw [hfr, toolPreBody_files]
    exact lookupFile_remove_self _ _
  simp only [toolFreshRun, hexc]
  refine ⟨trivial, ?_, ?_⟩
  · rw [tool_finished_files, toolPreBody_ts, hres]
    by_cases ht : truthyRes r
    · simp only [ht, if_true]
      exact lookupFile_write_self _ _ _
    · have ht' : truthyRes r = false := by revert ht; cases truthyRes r <;> simp
      simp only [ht', Bool.false_eq_true, if_false]
      exact lookupFile_write_self _ _ _
  · rw [tool_finished_files, toolPreBody_ts, hres]
    by_cases ht : truthyRes r
    · simp only [ht, if_true]
      rw [lookupFile_write_ne _ _ _ _ (fun he => hne he.symm)]
      exact hplainN
    · have ht' : truthyRes r = false := by revert ht; cases truthyRes r <;> simp
      simp only [ht', Bool.false_eq_true, if_false]
      rw [lookupFile_write_ne _ _ _ _ hne]
      exact hresN

/-- C8: in a fresh (non-reused) run of a reusable Tool, starting removes
both marker files; when the body returns normally and leaves the marker
paths alone, the run finishes with exactly one of the two markers
written, the result-available one if the result is truthy and the plain
one otherwise, whose content is the start timestamp line followed by the
finish timestamp line, exactly two newline-terminated lines. -/
theorem c8_marker_files (st : St) (n cls : String) (body : St → BodyRes) (r : ResVal)
    (hrun : ∀ s, (body s).exc = none ∧ (body s).result = r)
    (hfiles : ∀ s,
      lookupFile (body s).st.files (logPathPlain (cwdOf (n :: st.stack)) n)
        = lookupFile s.files (logPathPlain (cwdOf (n :: st.stack)) n) ∧
      lookupFile (body s).st.files (logPathRes (cwdOf (n :: st.stack)) n true)
        = lookupFile s.files (logPathRes (cwdOf (n :: st.stack)) n true))
    (honly : st.onlyReload = false)
    (hwanna : toolWannaReuse true (attrsGet st.attrs (cwdOf st.stack)) st.files st.store
      (logPathPlain (cwdOf (n :: st.stack)) n)
      (logPathRes (cwdOf (n :: st.stack)) n true)
      (cwdOf (n :: st.stack)) = false) :
    (∀ fs,
      lookupFile (removeFile (removeFile fs (logPathPlain (cwdOf (n :: st.stack)) n))
          (logPathRes (cwdOf (n :: st.stack)) n true))
        (logPathPlain (cwdOf (n :: st.stack)) n) = none ∧
      lookupFile (removeFile (removeFile fs (logPathPlain (cwdOf (n :: st.stack)) n))
          (logPathRes (cwdOf (n :: st.stack)) n true))
        (logPathRes (cwdOf (n :: st.stack)) n true) = none) ∧
    (runNode st (.tool n cls true body)).2 = none ∧
    (∃ t1 t2,
      lookupFile (runNode st (.tool n cls true body)).1.files
          (if truthyRes r then logPathRes (cwdOf (n :: st.stack)) n true
           else logPathPlain (cwdOf (n :: st.stack)) n)
        = some ((ctime t1 ++ "\n") ++ (ctime t2 ++ "\n")) ∧
      lookupFile (runNode st (.tool n cls true body)).1.files
          (if truthyRes r then logPathPlain (cwdOf (n :: st.stack)) n
           else logPathRes (cwdOf (n :: st.stack)) n true) = none ∧
      ((ctime t1 ++ "\n") ++ (ctime t2 ++ "\n")).data.count '\n' = 2) := by
  have hne := logPath_ne (cwdOf (n :: st.stack)) n
  refine ⟨?_, ?_⟩
  · intro fs
    constructor
    · rw [lookupFile_remove_ne _ _ _ (fun he => hne he.symm)]
      exact lookupFile_remove_self _ _
    · exact lookupFile_remove_self _ _
  · have hrunPair : runNode st (.tool n cls true body)
        = ({ (toolFreshRun (addEv { st with stack := n :: st.stack }
              (.asked (cwdOf st.stack) n (attrsGet st.attrs (cwdOf st.stack))))
            (cwdOf st.stack) (cwdOf (n :: st.stack))
            (logPathPlain (cwdOf (n :: st.stack)) n)
            (logPathRes (cwdOf (n :: st.stack)) n true) cls true body).1
            with stack := st.stack },
          (toolFreshRun (addEv { st with stack := n :: st.stack }
              (.asked (cwdOf st.stack) n (attrsGet st.attrs (cwdOf st.stack))))
            (cwdOf st.stack) (cwdOf (n :: st.stack))
            (logPathPlain (cwdOf (n :: st.stack)) n)
            (logPathRes (cwdOf (n :: st.stack)) n true) cls true body).2) := by
      simp only [runNode, addEv]
      rw [hwanna]
      simp [honly, addEv]
    rw [hrunPair]
    have hfr := toolFreshRun_files
      (addEv { st with stack := n :: st.stack }
        (.asked (cwdOf st.stack) n (attrsGet st.attrs (cwdOf st.stack))))
      (cwdOf st.stack) (cwdOf (n :: st.stack))
      (logPathPlain (cwdOf (n :: st.stack)) n)
      (logPathRes (cwdOf (n :: st.stack)) n true) cls body r hrun hfiles hne
    exact ⟨hfr.1, st.clock,
      (body (toolPreBody (addEv { st with stack := n :: st.stack }
        (.asked (cwdOf st.stack) n (attrsGet st.attrs (cwdOf st.stack))))
        (cwdOf st.stack) (cwdOf (n :: st.stack))
        (logPathPlain (cwdOf (n :: st.stack)) n)
        (logPathRes (cwdOf (n :: st.stack)) n true) true).1).st.clock,
      hfr.2.1, hfr.2.2, two_lines_count _ _⟩

/-- State and body for the C8 witness: a fresh run with a truthy,
persistable result. -/
def c8wst : St :=
  { files := [], store := [], stack := ["Root"],
    attrs := [("Root/", false)], onlyReload := false, monitorWasReset := false,
    clock := 0, trace := [] }

def c8wbody : St → BodyRes := fun s => ⟨s, .someV true true, none⟩

/-- C8 witness: the theorem at a concrete fresh run. -/
theorem c8_marker_files_witness :
    (∀ fs,
      lookupFile (removeFile (removeFile fs (logPathPlain (cwdOf ("T" :: c8wst.stack)) "T"))
          (logPathRes (cwdOf ("T" :: c8wst.stack)) "T" true))
        (logPathPlain (cwdOf ("T" :: c8wst.stack)) "T") = none ∧
      lookupFile (removeFile (removeFile fs (logPathPlain (cwdOf ("T" :: c8wst.stack)) "T"))
          (logPathRes (cwdOf ("T" :: c8wst.stack)) "T" true))
        (logPathRes (cwdOf ("T" :: c8wst.stack)) "T" true) = none) ∧
    (runNode c8wst (.tool "T" "Tool" true c8wbody)).2 = none ∧
    (∃ t1 t2,
      lookupFile (runNode c8wst (.tool "T" "Tool" true c8wbody)).1.files
          (if truthyRes (.someV true true) then logPathRes (cwdOf ("T" :: c8wst.stack)) "T" true
           else logPathPlain (cwdOf ("T" :: c8wst.stack)) "T")
        = some ((ctime t1 ++ "\n") ++ (ctime t2 ++ "\n")) ∧
      lookupFile (runNode c8wst (.tool "T" "Tool" true c8wbody)).1.files
          (if truthyRes (.someV true true) then logPathPlain (cwdOf ("T" :: c8wst.stack)) "T"
           else logPathRes (cwdOf ("T" :: c8wst.stack)) "T" true) = none ∧
      ((ctime t1 ++ "\n") ++ (ctime t2 ++ "\n")).data.count '\n' = 2) :=
  c8_marker_files c8wst "T" "Tool" c8wbody (.someV true true)
    (fun s => ⟨rfl, rfl⟩) (fun s => ⟨rfl, rfl⟩) rfl (by decide)

/-- State for the C10 witness. -/
def c10wst : St :=
  { files := [], store := [], stack := ["Root"],
    attrs := [("Root/", false)], onlyReload := false, monitorWasReset := false,
    clock := 0, trace := [] }

/-- C10: a Tool constructed with can_reuse = false never reuses
(wanna_reuse is false for every argument and state), its
result-available marker path computed on entry collapses to the plain
log path, and Tool.finished called with the collapsed paths writes that
single file even when the result is truthy. -/
theorem c10_non_reusable_tool :
    (∀ (arg : Bool) (fs : List (String × String)) (store : List String)
      (plain res cwd : String),
      toolWannaReuse false arg fs store plain res cwd = false) ∧
    (∀ M n, logPathRes M n false = logPathPlain M n) ∧
    (∀ (stf : St) (M plain ts : String) (r : ResVal), truthyRes r = true →
      lookupFile (tool_finished stf M plain plain ts r).files plain
        = some (ts ++ (ctime stf.clock ++ "\n"))) := by
  refine ⟨toolWannaReuse_false_cr, ?_, ?_⟩
  · intro M n
    simp [logPathRes]
  · intro stf M plain ts r ht
    rw [tool_finished_files]
    simp only [ht, if_true]
    exact lookupFile_write_self _ _ _

/-- C10 witness: the theorem at concrete inputs, with a truthy
persistable result. -/
theorem c10_non_reusable_tool_witness :
    toolWannaReuse false true [] [] "p" "r" "c" = false ∧
    logPathRes "Root/T/" "T" false = logPathPlain "Root/T/" "T" ∧
    lookupFile (tool_finished c10wst "Root/T/" "Root/T/T.log" "Root/T/T.log" "t\n"
        (.someV true true)).files "Root/T/T.log"
      = some ("t\n" ++ (ctime c10wst.clock ++ "\n")) :=
  ⟨c10_non_reusable_tool.1 true [] [] "p" "r" "c",
   c10_non_reusable_tool.2.1 "Root/T/" "T",
   c10_non_reusable_tool.2.2 c10wst "Root/T/" "Root/T/T.log" "t\n" (.someV true true)
     (by decide)⟩

/-- A value in the shared analysis context: abstract mutable content
plus the two classification facts the snapshot logic inspects
(inspect.ismodule and callable). -/
structure Content where
  data : Nat
  isModuleC : Bool
  isCallableC : Bool
deriving DecidableEq, Repr

/-- The shared analysis module state for ToolChainVanilla: the module
dictionary binding names to object references, the object heap, and the
allocator frontier. -/
structure ASt where
  adict : List (String × Nat)
  heap : Nat → Content
  nxt : Nat

/-- The Python 2 test `key[0] == chr(95)` on a dictionary key. -/
def keyPrivate (k : String) : Bool :=
  match k.data with
  | [] => false
  | c :: _ => c == '_'

/-- The exclusion test of ToolChainVanilla.__enter__: private names, the
two identifiers kept for lookup, modules and callables are stored by
reference; everything else is deep-copied. -/
def vanillaKeep (k : String) (c : Content) : Bool :=
  keyPrivate k || k == "results_base" || k == "current_result"
    || c.isModuleC || c.isCallableC

/-- One entry of `self._old_analysis_data`: either the original
reference (excluded entries) or the content captured by the deep copy.
`copied` is modelled from the spec: util.deepish_copy is not among the
sources; per the spec it yields an independent deep copy of the value,
so the snapshot retains the content as data unreachable from the run. -/
inductive SnapEntry where
  | kept (r : Nat)
  | copied (c : Content)
deriving DecidableEq, Repr

/-- Dictionary lookup on the analysis module dictionary. -/
def lookupRef (d : List (String × Nat)) (k : String) : Option Nat :=
  (d.find? (fun e => e.1 == k)).map (·.2)

theorem lookupRef_cons (e : String × Nat) (d : List (String × Nat)) (q : String) :
    lookupRef (e :: d) q = if e.1 = q then some e.2 else lookupRef d q := by
  simp only [lookupRef, List.find?_cons]
  by_cases h : e.1 = q
  · simp [h]
  · have hb : (e.1 == q) = false := by simp [h]
    simp [hb, h]

/-- ToolChainVanilla.__enter__: walk analysis.__dict__ and build
`self._old_analysis_data`, keeping excluded entries by reference and
deep-copying the rest. -/
def vanilla_enter (d : List (String × Nat)) (heap : Nat → Content) :
    List (String × SnapEntry) :=
  d.map (fun e =>
    (e.1, if vanillaKeep e.1 (heap e.2) then SnapEntry.kept e.2
          else SnapEntry.copied (heap e.2)))

/-- ToolChainVanilla.__exit__: analysis.__dict__.clear() followed by
update(self._old_analysis_data), applied to whatever heap and allocator
frontier the run left behind (the run may have mutated and allocated
arbitrarily, and the exit runs on success and on exception alike); the
copied entries materialise as fresh objects holding the snapshot
content. -/
def vanilla_exit : List (String × SnapEntry) → (Nat → Content) → Nat → ASt
  | [], h2, n2 => ⟨[], h2, n2⟩
  | (k, SnapEntry.kept r) :: rest, h2, n2 =>
    let a := vanilla_exit rest h2 n2
    { a with adict := (k, r) :: a.adict }
  | (k, SnapEntry.copied c) :: rest, h2, n2 =>
    let a := vanilla_exit rest h2 n2
    ⟨(k, a.nxt) :: a.adict, fun m => if m = a.nxt then c else a.heap m, a.nxt + 1⟩

theorem vanilla_exit_nxt_ge (s : List (String × SnapEntry)) (h2 : Nat → Content)
    (n2 : Nat) : n2 ≤ (vanilla_exit s h2 n2).nxt := by
  induction s with
  | nil => exact le_refl _
  | cons e rest ih =>
    obtain ⟨k, entry⟩ := e
    cases entry with
    | kept r => simpa [vanilla_exit] using ih
    | copied c =>
      simp only [vanilla_exit]
      omega

theorem vanilla_enter_cons (e : String × Nat) (rest : List (String × Nat))
    (heap : Nat → Content) :
    vanilla_enter (e :: rest) heap
      = (e.1, if vanillaKeep e.1 (heap e.2) then SnapEntry.kept e.2
              else SnapEntry.copied (heap e.2)) :: vanilla_enter rest heap := rfl

/-- C6: around a ToolChainVanilla run, whatever the children did to the
heap and the allocator (`heap2`, `nxt2` are arbitrary, covering normal
return and exceptions alike since the with statement always runs the
exit), restoring from the snapshot leaves every original binding as
before entry: an excluded binding (private name, results_base,
current_result, module or callable) is kept by reference (same object),
and every other binding is bound to a fresh object whose content is
exactly the pre-entry content captured by the deep copy; bindings added
during the run are dropped.  The deep copy (util.deepish_copy) is
modelled from the spec, the rest follows
ToolChainVanilla.__enter__/__exit__. -/
theorem c6_vanilla_restore (d : List (String × Nat)) (heap heap2 : Nat → Content)
    (nxt2 : Nat) :
    (∀ k r, lookupRef d k = some r →
      (vanillaKeep k (heap r) = true →
        lookupRef (vanilla_exit (vanilla_enter d heap) heap2 nxt2).adict k = some r) ∧
      (vanillaKeep k (heap r) = false →
        ∃ r2, lookupRef (vanilla_exit (vanilla_enter d heap) heap2 nxt2).adict k = some r2 ∧
          (vanilla_exit (vanilla_enter d heap) heap2 nxt2).heap r2 = heap r ∧
          nxt2 ≤ r2 ∧ r2 < (vanilla_exit (vanilla_enter d heap) heap2 nxt2).nxt)) ∧
    (∀ k, lookupRef d k = none →
      lookupRef (vanilla_exit (vanilla_enter d heap) heap2 nxt2).adict k = none) := by
  induction d with
  | nil =>
    constructor
    · intro k r hk
      simp [lookupRef] at hk
    · intro k hk
      simp [vanilla_enter, vanilla_exit, lookupRef]
  | cons e rest ih =>
    obtain ⟨k0, r0⟩ := e
    rw [vanilla_enter_cons]
    by_cases hkeep : vanillaKeep k0 (heap r0) = true
    · simp only [hkeep, if_true, vanilla_exit]
      constructor
      · intro k r hk
        rw [lookupRef_cons] at hk
        by_cases hk0 : k0 = k
        · rw [if_pos hk0] at hk
          injection hk with hr
          subst hr
          subst hk0
          refine ⟨fun _ => ?_, fun hfalse => ?_⟩
          · rw [lookupRef_cons, if_pos rfl]
          · rw [hkeep] at hfalse
            cases hfalse
        · rw [if_neg hk0] at hk
          have hrest := ih.1 k r hk
          refine ⟨fun hkk => ?_, fun hkk => ?_⟩
          · rw [lookupRef_cons, if_neg hk0]
            exact hrest.1 hkk
          · obtain ⟨r2, h1, h2, h3, h4⟩ := hrest.2 hkk
            refine ⟨r2, ?_, h2, h3, h4⟩
            rw [lookupRef_cons, if_neg hk0]
            exact h1
      · intro k hk
        rw [lookupRef_cons] at hk
        by_cases hk0 : k0 = k
        · rw [if_pos hk0] at hk
          cases hk
        · rw [if_neg hk0] at hk
          rw [lookupRef_cons, if_neg hk0]
          exact ih.2 k hk
    · have hkeep' : vanillaKeep k0 (heap r0) = false := by
        revert hkeep; cases vanillaKeep k0 (heap r0) <;> simp
      simp only [hkeep', Bool.false_eq_true, if_false, vanilla_exit]
      constructor
      · intro k r hk
        rw [lookupRef_cons] at hk
        by_cases hk0 : k0 = k
        · rw [if_pos hk0] at hk
          injection hk with hr
          subst hr
          subst hk0
          refine ⟨fun htrue => ?_, fun _ => ?_⟩
          · rw [hkeep'] at htrue
            cases htrue
          · refine ⟨(vanilla_exit (vanilla_enter rest heap) heap2 nxt2).nxt, ?_, ?_, ?_, ?_⟩
            · rw [lookupRef_cons, if_pos rfl]
            · simp
            · exact vanilla_exit_nxt_ge _ _ _
            · simp
        · rw [if_neg hk0] at hk
          have hrest := ih.1 k r hk
          refine ⟨fun hkk => ?_, fun hkk => ?_⟩
          · rw [lookupRef_cons, if_neg hk0]
            exact hrest.1 hkk
          · obtain ⟨r2, h1, h2, h3, h4⟩ := hrest.2 hkk
            refine ⟨r2, ?_, ?_, h3, ?_⟩
            · rw [lookupRef_cons, if_neg hk0]
              exact h1
            · have hne : r2 ≠ (vanilla_exit (vanilla_enter rest heap) heap2 nxt2).nxt := by
                omega
              simp only [hne, if_false]
              exact h2
            · show r2 < (vanilla_exit (vanilla_enter rest heap) heap2 nxt2).nxt + 1
              omega
      · intro k hk
        rw [lookupRef_cons] at hk
        by_cases hk0 : k0 = k
        · rw [if_pos hk0] at hk
          cases hk
        · rw [if_neg hk0] at hk
          rw [lookupRef_cons, if_neg hk0]
          exact ih.2 k hk

/-- Analysis dictionary and heap for the C6 witness: a binding kept for
lookup, a plain data binding, and a private binding. -/
def c6d : List (String × Nat) := [("results_base", 0), ("data", 1), ("_cache", 2)]

def c6heap : Nat → Content := fun r => if r = 1 then ⟨7, false, false⟩ else ⟨0, false, true⟩

def c6heap2 : Nat → Content := fun _ => ⟨99, false, false⟩

/-- C6 witness: the theorem at a concrete context, showing the kept
binding restored by reference and the copied binding restored with its
pre-entry content at a fresh reference. -/
theorem c6_vanilla_restore_witness :
    lookupRef (vanilla_exit (vanilla_enter c6d c6heap) c6heap2 10).adict "results_base"
      = some 0 ∧
    (∃ r2, lookupRef (vanilla_exit (vanilla_enter c6d c6heap) c6heap2 10).adict "data"
        = some r2 ∧
      (vanilla_exit (vanilla_enter c6d c6heap) c6heap2 10).heap r2 = c6heap 1 ∧
      10 ≤ r2 ∧ r2 < (vanilla_exit (vanilla_enter c6d c6heap) c6heap2 10).nxt) :=
  ⟨((c6_vanilla_restore c6d c6heap c6heap2 10).1 "results_base" 0 (by rfl)).1 (by decide),
   ((c6_vanilla_restore c6d c6heap c6heap2 10).1 "data" 1 (by rfl)).2 (by decide)⟩
